import Mathlib

/-!
Verification of the fuzzy search and caching engine of the `ramayanam`
repository (`src/api/services/optimized_fuzzy_search_service.py` and the
pagination logic of `src/api/controllers/sloka_controller.py`).

The Python code is shallowly embedded: dictionaries become structures,
the `OrderedDict`-based query cache becomes an ordered association list,
generator-based streaming becomes a function returning the list of yielded
batches, and the thread pool's deterministic submit/collect order becomes
sequential chunk processing (the code collects futures in submission
order, so a run in which no chunk times out has exactly this semantics).

The external similarity primitives (`rapidfuzz.fuzz.partial_ratio`, used
for scoring, and `rapidfuzz.fuzz.ratio`, used by the highlighter) are kept
abstract as function parameters `pr fr : String → String → Nat`; the spec
treats the similarity metric as an external primitive producing integer
scores 0..100.  Python `time.time()` timestamps are modelled as `Nat`.
The md5 cache key is modelled by the tuple of fields it is derived from
(`f"{search_type}:{query}:{kanda}:{threshold}"`), i.e. key collisions of
md5 are ignored.
-/

namespace Ramayanam

/-- Lower-case a string character by character (Python `str.lower`,
restricted to the simple one-to-one case folding of `Char.toLower`). -/
def strLower (s : String) : String := ⟨s.toList.map Char.toLower⟩

/-- Remove leading and trailing whitespace from a character list. -/
def trimChars (cs : List Char) : List Char :=
  ((cs.dropWhile Char.isWhitespace).reverse.dropWhile Char.isWhitespace).reverse

/-- Python `str.strip()`. -/
def strTrim (s : String) : String := ⟨trimChars s.toList⟩

/-- Split a character stream into raw tokens, cutting at whitespace and at
pipe characters.  This realises `re.split(r"\s+|\|\|?|\n", text)` up to the
empty fragments, which the caller filters away (splitting at every single
delimiter character and dropping empty fragments yields the same token
list as splitting at delimiter runs). -/
def tokenizeChars : List Char → List Char → List (List Char)
  | [], cur => [cur.reverse]
  | c :: rest, cur =>
    if c.isWhitespace || c = '|' then cur.reverse :: tokenizeChars rest []
    else tokenizeChars rest (c :: cur)

/-- Model of `tokenize` of the service: split on whitespace and pipes, keep only
non-empty tokens. -/
def tokenize (text : String) : List String :=
  ((tokenizeChars text.toList []).filter (fun t => ¬ t.isEmpty)).map (fun cs => ⟨cs⟩)

/-- Predicate `listPrefixEq a b`: true when `a` is an initial segment of `b`. -/
def listPrefixEq : List Char → List Char → Bool
  | [], _ => true
  | _ :: _, [] => false
  | a :: as, b :: bs => a == b && listPrefixEq as bs

/-- Python's substring test `sub in s`. -/
def strContains (s sub : String) : Bool :=
  let cs := s.toList
  let qs := sub.toList
  (List.range (cs.length + 1)).any (fun i => listPrefixEq qs (cs.drop i))

/-- Lexicographic comparison of character lists by code point. -/
def listLt : List Char → List Char → Bool
  | [], [] => false
  | [], _ :: _ => true
  | _ :: _, [] => false
  | a :: as, b :: bs => if a < b then true else if b < a then false else listLt as bs

/-- Python's `<` on strings: lexicographic by code point (the order meant
by "ascending verse identifier" on identifier strings like "1.2.1"). -/
def strLt (a b : String) : Bool := listLt a.toList b.toList

/-- One entry of the pre-built search indices (`translation_index` /
`sanskrit_index`): the dictionary built per sloka in
`_build_search_indices`, with the fields the search code reads. -/
structure SlokaEntry where
  sloka_id : String
  sloka_text : String
  translation : String
  meaning : String
  kanda : Nat
  deriving DecidableEq, Repr

/-- A search result dictionary as produced by the service.  `source` is
`some "ramayana"` for results built by `_parallel_search_chunk` and `none`
for the exact-match fast path, which omits the `"source"` key. -/
structure SearchResult where
  sloka_number : String
  sloka : String
  translation : String
  meaning : String
  ratio : Nat
  source : Option String
  deriving DecidableEq, Repr

/-- Which field group a search scores against (`search_field` strings
`'translation'` vs `'sloka_text'`/`'sanskrit'`). -/
inductive SearchField where
  | translation
  | slokaText
  deriving DecidableEq, Repr

/-- Model of `search_and_highlight(text, query)` of the optimized service: wrap
every token that equals the query (case-insensitively) or whose
`fuzz.ratio` against the query reaches 70 (`threshold * 100` at the
default `threshold=0.7`) in a highlight span, and re-join with spaces. -/
def searchAndHighlight (fr : String → String → Nat) (text query : String) : String :=
  let highlighted := (tokenize text).map (fun token =>
    if strLower query = strLower token then
      "<span class=\"highlight\">" ++ token ++ "</span>"
    else if 70 ≤ fr (strLower query) (strLower token) then
      "<span class=\"highlight\">" ++ token ++ "</span>"
    else token)
  " ".intercalate highlighted

/-- The per-item body of `_parallel_search_chunk`: score one index entry
against the query, returning a result only when the score strictly
exceeds the threshold (`if ratio > threshold`).  Translation mode scores
the translation text; Sanskrit mode takes the maximum of the sloka text
score and the meaning score; items with missing (falsy, i.e. empty)
required fields are skipped. -/
def resultOfItem (pr fr : String → String → Nat) (query : String) (threshold : Nat)
    (field : SearchField) (item : SlokaEntry) : Option SearchResult :=
  match field with
  | .translation =>
    if item.translation = "" then none
    else
      let ratio := pr item.translation query
      if threshold < ratio then
        some { sloka_number := item.sloka_id
               sloka := item.sloka_text
               translation := searchAndHighlight fr item.translation query
               meaning := item.meaning
               ratio := ratio
               source := some "ramayana" }
      else none
  | .slokaText =>
    if item.sloka_text = "" ∨ item.meaning = "" then none
    else
      let ratio := max (pr item.sloka_text query) (pr item.meaning query)
      if threshold < ratio then
        some { sloka_number := item.sloka_id
               sloka := searchAndHighlight fr item.sloka_text query
               translation := item.translation
               meaning := searchAndHighlight fr item.meaning query
               ratio := ratio
               source := some "ramayana" }
      else none

/-- Model of `_parallel_search_chunk(chunk, query, threshold, search_field)`:
scan a chunk of index entries, keeping the items that score above the
threshold. -/
def searchChunk (pr fr : String → String → Nat) (chunk : List SlokaEntry)
    (query : String) (threshold : Nat) (field : SearchField) : List SearchResult :=
  chunk.filterMap (resultOfItem pr fr query threshold field)

/-- Insert a result into a list sorted by ratio descending, placing it
before the first strictly smaller ratio (so that, combined with
`sortDesc`, equal-ratio elements keep their original relative order,
exactly like Python's stable `list.sort(key=..., reverse=True)`). -/
def insertDesc (x : SearchResult) : List SearchResult → List SearchResult
  | [] => [x]
  | y :: ys => if y.ratio ≤ x.ratio then x :: y :: ys else y :: insertDesc x ys

/-- Stable sort by `ratio` descending: the model of
`results.sort(key=lambda x: x["ratio"], reverse=True)`. -/
def sortDesc : List SearchResult → List SearchResult
  | [] => []
  | x :: xs => insertDesc x (sortDesc xs)

/-- A result list sorted by similarity score descending. -/
def SortedDesc (l : List SearchResult) : Prop :=
  List.Pairwise (fun a b => b.ratio ≤ a.ratio) l

theorem insertDesc_perm (x : SearchResult) (l : List SearchResult) :
    List.Perm (insertDesc x l) (x :: l) := by
  induction l with
  | nil => simp [insertDesc]
  | cons y ys ih =>
    simp only [insertDesc]
    split
    · exact List.Perm.refl _
    · exact ((ih.cons y).trans (List.Perm.swap x y ys))

theorem sortDesc_perm (l : List SearchResult) : List.Perm (sortDesc l) l := by
  induction l with
  | nil => simp [sortDesc]
  | cons x xs ih => exact (insertDesc_perm x (sortDesc xs)).trans (ih.cons x)

theorem mem_insertDesc {y x : SearchResult} {l : List SearchResult} :
    y ∈ insertDesc x l ↔ y = x ∨ y ∈ l := by
  rw [(insertDesc_perm x l).mem_iff, List.mem_cons]

theorem insertDesc_sorted {x : SearchResult} {l : List SearchResult}
    (h : SortedDesc l) : SortedDesc (insertDesc x l) := by
  induction l with
  | nil => simp [insertDesc, SortedDesc]
  | cons y ys ih =>
    rcases List.pairwise_cons.mp h with ⟨hy, hys⟩
    simp only [insertDesc]
    split
    · rename_i hle
      refine List.pairwise_cons.mpr ⟨?_, h⟩
      intro z hz
      rcases List.mem_cons.mp hz with rfl | hz
      · exact hle
      · exact le_trans (hy z hz) hle
    · rename_i hgt
      refine List.pairwise_cons.mpr ⟨?_, ih hys⟩
      intro z hz
      rcases mem_insertDesc.mp hz with rfl | hz
      · omega
      · exact hy z hz

theorem sortDesc_sorted (l : List SearchResult) : SortedDesc (sortDesc l) := by
  induction l with
  | nil => simp [sortDesc, SortedDesc]
  | cons x xs ih => exact insertDesc_sorted ih

theorem sortDesc_length (l : List SearchResult) : (sortDesc l).length = l.length :=
  (sortDesc_perm l).length_eq

theorem sortedDesc_take {l : List SearchResult} (n : Nat) (h : SortedDesc l) :
    SortedDesc (l.take n) :=
  List.Pairwise.sublist (List.take_sublist n l) h

end Ramayanam

namespace Ramayanam

/-- Fuel-indexed worker for `chunksOf` (structural recursion so that the
definition computes by `rfl`/`decide`). -/
def chunksOfAux (n : Nat) : Nat → List SlokaEntry → List (List SlokaEntry)
  | 0, _ => []
  | _, [] => []
  | fuel + 1, x :: xs => (x :: xs).take n :: chunksOfAux n fuel ((x :: xs).drop n)

/-- Partition a list into consecutive chunks of `n` elements
(`[index[i:i+n] for i in range(0, len(index), n)]`). -/
def chunksOf (n : Nat) (l : List SlokaEntry) : List (List SlokaEntry) :=
  if n = 0 then [] else chunksOfAux n l.length l

theorem chunksOfAux_join_filterMap (g : SlokaEntry → Option SearchResult)
    {n : Nat} (hn : 0 < n) :
    ∀ fuel l, l.length ≤ fuel →
      ((chunksOfAux n fuel l).map (fun ch => ch.filterMap g)).flatten = l.filterMap g := by
  intro fuel
  induction fuel with
  | zero =>
    intro l hl
    have : l = [] := List.length_eq_zero.mp (Nat.le_zero.mp hl)
    subst this
    simp [chunksOfAux]
  | succ fuel ih =>
    intro l hl
    cases l with
    | nil => simp [chunksOfAux]
    | cons x xs =>
      simp only [chunksOfAux, List.map_cons, List.flatten_cons]
      have hdrop : ((x :: xs).drop n).length ≤ fuel := by
        simp only [List.length_drop, List.length_cons] at hl ⊢
        omega
      rw [ih _ hdrop, ← List.filterMap_append, List.take_append_drop]

/-- Splitting the index into chunks, searching every chunk, and
concatenating the per-chunk results is the same as searching the whole
index: the parallel matcher computes the same multiset of results as a
single scan. -/
theorem chunksOf_searchChunk_join (pr fr : String → String → Nat)
    (query : String) (threshold : Nat) (field : SearchField)
    {n : Nat} (hn : 0 < n) (l : List SlokaEntry) :
    ((chunksOf n l).map (fun ch => searchChunk pr fr ch query threshold field)).flatten
      = searchChunk pr fr l query threshold field := by
  unfold chunksOf searchChunk
  rw [if_neg (Nat.pos_iff_ne_zero.mp hn)]
  exact chunksOfAux_join_filterMap _ hn l.length l (Nat.le_refl _)

/-- A query-cache key: the data `_get_cache_key` feeds into md5
(`f"{search_type}:{query}:{kanda}:{threshold}"`). -/
structure CacheKey where
  searchType : String
  query : String
  kanda : Option Nat
  threshold : Nat
  deriving DecidableEq, Repr

/-- The `_cache_stats` counters of the optimized service. -/
structure CacheStats where
  hits : Nat
  misses : Nat
  evictions : Nat
  deriving DecidableEq, Repr

/-- One cache slot: key, stored result list, insertion timestamp.  The
Python code keeps the values in an `OrderedDict` and the timestamps in a
parallel dict, always updated together; the model merges them. -/
abbrev CacheSlot := CacheKey × List SearchResult × Nat

/-- The mutable cache state: the association list is in `OrderedDict`
order, front = oldest / least recently used, back = most recently used. -/
structure Cache where
  entries : List CacheSlot
  stats : CacheStats
  deriving Repr

/-- The cache of a freshly constructed service. -/
def Cache.empty : Cache := ⟨[], ⟨0, 0, 0⟩⟩

/-- Static cache configuration.  `ttl` is `_cache_ttl`, `maxSize` is
`_cache_max_size`, and `memOver` abstracts the memory estimate of
`_cleanup_cache_by_memory` (`len(str(self._search_cache))/(1024*1024) >
self._cache_max_memory_mb`), a Python-representation detail kept as an
opaque-to-the-proofs boolean predicate on the entry list. -/
structure CacheConfig where
  ttl : Nat
  maxSize : Nat
  memOver : List CacheSlot → Bool

/-- Look up the slot stored under a key (value and timestamp). -/
def Cache.find (c : Cache) (k : CacheKey) : Option (List SearchResult × Nat) :=
  (c.entries.find? (fun e => decide (e.1 = k))).map (fun e => e.2)

/-- Model of `OrderedDict.move_to_end`: move the entry with the given key to the
most-recently-used end. -/
def moveToEnd (l : List CacheSlot) (k : CacheKey) : List CacheSlot :=
  match l.find? (fun e => decide (e.1 = k)) with
  | some e => l.filter (fun x => !(decide (x.1 = k))) ++ [e]
  | none => l

/-- Model of `_get_cached_result`: return the stored value if present and not
TTL-expired, marking the entry most-recently-used and counting a hit;
delete an expired entry (counting an eviction); count a miss whenever no
fresh value is returned. -/
def getCachedResult (cfg : CacheConfig) (c : Cache) (k : CacheKey) (now : Nat) :
    Option (List SearchResult) × Cache :=
  match c.entries.find? (fun e => decide (e.1 = k)) with
  | some e =>
    if now - e.2.2 < cfg.ttl then
      (some e.2.1, ⟨moveToEnd c.entries k, ⟨c.stats.hits + 1, c.stats.misses, c.stats.evictions⟩⟩)
    else
      (none, ⟨c.entries.filter (fun x => !(decide (x.1 = k))),
              ⟨c.stats.hits, c.stats.misses + 1, c.stats.evictions + 1⟩⟩)
  | none => (none, ⟨c.entries, ⟨c.stats.hits, c.stats.misses + 1, c.stats.evictions⟩⟩)

/-- The `while len(self._search_cache) >= self._cache_max_size` loop of
`_cache_result`: drop oldest entries from the front until the size is
below the maximum, returning the survivors and the number of evictions. -/
def evictLoop (maxSize : Nat) : List CacheSlot → List CacheSlot × Nat
  | [] => ([], 0)
  | e :: es =>
    if maxSize ≤ (e :: es).length then
      let p := evictLoop maxSize es
      (p.1, p.2 + 1)
    else (e :: es, 0)

/-- Model of `_cleanup_cache_by_memory`: when the estimated memory footprint is
over budget, drop the oldest quarter (at least one) of the entries. -/
def cleanupByMemory (cfg : CacheConfig) (l : List CacheSlot) : List CacheSlot × Nat :=
  if cfg.memOver l then
    let removeCount := max 1 (l.length / 4)
    (l.drop removeCount, min removeCount l.length)
  else (l, 0)

/-- Model of `_cache_result(cache_key, result)`: memory cleanup, then LRU eviction
until below the maximum size, then insert (a pre-existing key keeps its
`OrderedDict` position and gets the new value and timestamp). -/
def cacheResult (cfg : CacheConfig) (c : Cache) (k : CacheKey)
    (v : List SearchResult) (now : Nat) : Cache :=
  let p1 := cleanupByMemory cfg c.entries
  let p2 := evictLoop cfg.maxSize p1.1
  let base := p2.1
  let entries2 :=
    if base.any (fun e => decide (e.1 = k)) then
      base.map (fun e => if e.1 = k then (k, v, now) else e)
    else base ++ [(k, v, now)]
  ⟨entries2, ⟨c.stats.hits, c.stats.misses, c.stats.evictions + p1.2 + p2.2⟩⟩

end Ramayanam

namespace Ramayanam

/-- The cache key used by `search_translation_fuzzy` for a normalized
query (`_get_cache_key(query, 'translation')`, default threshold 70). -/
def transKey (query : String) : CacheKey :=
  ⟨"translation", strTrim (strLower query), none, 70⟩

/-- Model of `search_translation_fuzzy(query, max_results)` of the optimized
service: normalize the query (empty queries return `[]` untouched), try
the cache (an empty cached list is falsy and therefore not served), try
the exact-substring fast path when it alone already fills `max_results`,
otherwise score the whole translation index in parallel chunks at the
hard-coded threshold 70, sort by ratio descending, truncate, cache, and
return.  Returns the result list together with the updated cache. -/
def searchTranslationFuzzy (pr fr : String → String → Nat)
    (index : List SlokaEntry) (cfg : CacheConfig) (c : Cache) (now : Nat)
    (query0 : String) (maxResults : Nat) : List SearchResult × Cache :=
  let query := strTrim (strLower query0)
  if query = "" then ([], c)
  else
    let key := transKey query0
    let looked := getCachedResult cfg c key now
    let c1 := looked.2
    if (looked.1.getD []) ≠ [] then ((looked.1.getD []).take maxResults, c1)
    else
      let exactMatches := index.filter (fun it => strContains it.translation query)
      if maxResults ≤ exactMatches.length then
        let results := sortDesc ((exactMatches.take maxResults).map (fun it =>
          { sloka_number := it.sloka_id
            sloka := it.sloka_text
            translation := searchAndHighlight fr it.translation query
            meaning := it.meaning
            ratio := 100
            source := none }))
        (results, cacheResult cfg c1 key results now)
      else
        let len := index.length
        let optimalWorkers := min 8 (max 2 (len / 500))
        let chunkSize := max 50 (len / optimalWorkers)
        let allResults := ((chunksOf chunkSize index).map
          (fun ch => searchChunk pr fr ch query 70 .translation)).flatten
        let finalResults := (sortDesc allResults).take maxResults
        (finalResults, cacheResult cfg c1 key finalResults now)

/-- Model of `search_sloka_sanskrit_fuzzy(query, threshold, max_results)`: like the
translation search but over the Sanskrit index, scoring both the sloka
text and the meaning, with a caller-supplied threshold.  The query is
lower-cased but (unlike the translation search) not stripped, and there is
no empty-query early return. -/
def searchSlokaSanskritFuzzy (pr fr : String → String → Nat)
    (index : List SlokaEntry) (cfg : CacheConfig) (c : Cache) (now : Nat)
    (query0 : String) (threshold maxResults : Nat) : List SearchResult × Cache :=
  let query := strLower query0
  let key : CacheKey := ⟨"sanskrit", query, none, threshold⟩
  let looked := getCachedResult cfg c key now
  let c1 := looked.2
  if (looked.1.getD []) ≠ [] then ((looked.1.getD []).take maxResults, c1)
  else
    let exactMatches := index.filter
      (fun it => strContains it.sloka_text query || strContains it.meaning query)
    if maxResults ≤ exactMatches.length then
      let results := sortDesc ((exactMatches.take maxResults).map (fun it =>
        { sloka_number := it.sloka_id
          sloka := searchAndHighlight fr it.sloka_text query
          translation := it.translation
          meaning := searchAndHighlight fr it.meaning query
          ratio := 100
          source := none }))
      (results, cacheResult cfg c1 key results now)
    else
      let chunkSize := max 100 (index.length / 4)
      let allResults := ((chunksOf chunkSize index).map
        (fun ch => searchChunk pr fr ch query threshold .slokaText)).flatten
      let finalResults := (sortDesc allResults).take maxResults
      (finalResults, cacheResult cfg c1 key finalResults now)

/-- Model of `search_translation_in_kanda_fuzzy(kanda_number, query, threshold)`:
kanda-scoped translation search (no chunking, no exact-match fast path,
cached under a kanda-specific key, full list returned on a hit). -/
def searchTranslationInKandaFuzzy (pr fr : String → String → Nat)
    (index : List SlokaEntry) (cfg : CacheConfig) (c : Cache) (now : Nat)
    (kandaNumber : Nat) (query0 : String) (threshold : Nat) : List SearchResult × Cache :=
  let query := strLower query0
  let key : CacheKey := ⟨"translation_kanda", query, some kandaNumber, threshold⟩
  let looked := getCachedResult cfg c key now
  let c1 := looked.2
  if (looked.1.getD []) ≠ [] then (looked.1.getD [], c1)
  else
    let kandaItems := index.filter (fun it => decide (it.kanda = kandaNumber))
    let results := kandaItems.filterMap (fun item =>
      let ratio := pr item.translation query
      if threshold < ratio then
        some { sloka_number := item.sloka_id
               sloka := item.sloka_text
               translation := searchAndHighlight fr item.translation query
               meaning := item.meaning
               ratio := ratio
               source := none }
      else none)
    let results := sortDesc results
    (results, cacheResult cfg c1 key results now)

/-- The loop body of `search_stream`: walk the index chunks (one per
`batch_size` slice); after each chunk, if the accumulated results reach
`batch_size` or the index is exhausted, sort the accumulator, yield its
top `batch_size` elements and keep the remainder; after the loop, yield
whatever remains.  Returns the list of yielded batches. -/
def streamGo (pr fr : String → String → Nat) (field : SearchField)
    (query : String) (threshold batchSize : Nat) :
    List (List SlokaEntry) → List SearchResult → List (List SearchResult)
  | [], acc => if acc = [] then [] else [sortDesc acc]
  | ch :: rest, acc =>
    let chunkResults := sortDesc (searchChunk pr fr ch query threshold field)
    let acc2 := acc ++ chunkResults
    if batchSize ≤ acc2.length ∨ rest = [] then
      if acc2 = [] then streamGo pr fr field query threshold batchSize rest acc2
      else
        let sorted := sortDesc acc2
        let yieldCount := min batchSize sorted.length
        sorted.take yieldCount ::
          streamGo pr fr field query threshold batchSize rest (sorted.drop yieldCount)
    else streamGo pr fr field query threshold batchSize rest acc2

/-- Model of `search_stream(query, search_type, threshold, batch_size)`: the list
of batches the generator yields.  An empty normalized query yields
nothing. -/
def searchStream (pr fr : String → String → Nat)
    (tIndex sIndex : List SlokaEntry) (searchType : String)
    (threshold batchSize : Nat) (query0 : String) : List (List SearchResult) :=
  let query := strTrim (strLower query0)
  if query = "" then []
  else
    let index := if searchType = "translation" then tIndex else sIndex
    let field : SearchField := if searchType = "translation" then .translation else .slokaText
    streamGo pr fr field query threshold batchSize (chunksOf batchSize index) []

end Ramayanam

namespace Ramayanam

/-- Round-half-to-even on exact rationals: the idealization of Python's
`round(x, ...)` tie-breaking (the Python value is the nearest double; on
the integer-valued inputs used in the proofs below the two agree). -/
def roundHalfEven (x : ℚ) : ℤ :=
  let f := ⌊x⌋
  let frac := x - f
  if frac < 1 / 2 then f
  else if 1 / 2 < frac then f + 1
  else if f % 2 = 0 then f else f + 1

/-- Python `round(x, 2)`: round to two decimal places. -/
def round2 (x : ℚ) : ℚ := (roundHalfEven (x * 100) : ℚ) / 100

/-- The dictionary returned by `get_cache_stats` (minus the nested
`search_stats` timing copy, which no claim mentions). -/
structure CacheStatsReport where
  cache_size : Nat
  hit_rate : ℚ
  total_hits : Nat
  total_misses : Nat
  total_evictions : Nat
  deriving Repr

/-- Model of `get_cache_stats`: report the size and counters; `hit_rate` is
`hits / total_requests * 100` rounded to two decimals, or `0` when there
have been no requests. -/
def getCacheStats (c : Cache) : CacheStatsReport :=
  let totalRequests := c.stats.hits + c.stats.misses
  let hitRate : ℚ :=
    if 0 < totalRequests then round2 ((c.stats.hits : ℚ) / (totalRequests : ℚ) * 100)
    else 0
  ⟨c.entries.length, hitRate, c.stats.hits, c.stats.misses, c.stats.evictions⟩

/-- Constant `Config.MAX_PAGE_SIZE`. -/
def MAX_PAGE_SIZE : Nat := 50

/-- Pagination metadata computed by `fuzzy_search_slokas`. -/
structure PaginationMeta where
  page : Nat
  page_size : Nat
  total_results : Nat
  total_pages : Nat
  has_next : Bool
  has_prev : Bool
  deriving DecidableEq, Repr

/-- The pagination step of `fuzzy_search_slokas`: slice
`[(page-1)*page_size, page*page_size)` out of the full ranked list and
compute the metadata (`total_pages` by ceiling division, `has_next = page
< total_pages`, `has_prev = page > 1`). -/
def paginate (allResults : List SearchResult) (page pageSize : Nat) :
    List SearchResult × PaginationMeta :=
  let totalResults := allResults.length
  let startIdx := (page - 1) * pageSize
  let pageResults := (allResults.drop startIdx).take pageSize
  let totalPages := (totalResults + pageSize - 1) / pageSize
  (pageResults,
   ⟨page, pageSize, totalResults, totalPages,
    decide (page < totalPages), decide (1 < page)⟩)

/-- The body of a successful `fuzzy_search_slokas` response. -/
structure SearchPage where
  results : List SearchResult
  pagination : PaginationMeta
  deriving Repr

/-- The `/slokas/fuzzy-search` controller `fuzzy_search_slokas`: reject a
blank query with the 400-error message, reject `page < 1`, clamp the page
size to `MAX_PAGE_SIZE`, fetch the full ranked list (all kandas when
`kanda = 0`, one kanda otherwise, capped at `page_size * 100` results),
and return the requested page plus pagination metadata. -/
def fuzzySearchSlokas (pr fr : String → String → Nat)
    (tIndex : List SlokaEntry) (cfg : CacheConfig) (c : Cache) (now : Nat)
    (queryParam : String) (kandaNum : Nat) (threshold : Nat)
    (page pageSizeParam : Nat) : Except String (SearchPage × Cache) :=
  let query := strTrim queryParam
  if query = "" then .error "Query parameter is required"
  else
    let pageSize := min pageSizeParam MAX_PAGE_SIZE
    if page < 1 then .error "Page number must be >= 1"
    else
      let maxTotalResults := pageSize * 100
      let searched :=
        if kandaNum = 0 then
          searchTranslationFuzzy pr fr tIndex cfg c now query maxTotalResults
        else
          searchTranslationInKandaFuzzy pr fr tIndex cfg c now kandaNum query threshold
      let paged := paginate searched.1 page pageSize
      .ok (⟨paged.1, paged.2⟩, searched.2)

/-- Every result list stored in the cache is sorted by score descending
(an invariant the search functions maintain, assumed of the incoming
cache state where a theorem needs the cached-hit path to be sorted). -/
def CacheSorted (c : Cache) : Prop :=
  ∀ e ∈ c.entries, SortedDesc e.2.1

/-- Every result list stored under a key whose threshold is within the
0..100 score scale respects that threshold.  This invariant holds of all
reachable cache states: the fuzzy paths only store scores strictly above
the key's threshold, and the exact-substring fast path stores the fixed
score 100, which satisfies any key threshold that is at most 100 (a key
with threshold above 100 — possible, since the exact path ignores the
threshold — is simply exempted). -/
def CacheThresholdOK (c : Cache) : Prop :=
  ∀ e ∈ c.entries, e.1.threshold ≤ 100 → ∀ r ∈ e.2.1, e.1.threshold ≤ r.ratio

/-- Predicate `isContigSlice l b`: holds when `b` occurs in `l` as a contiguous
slice `l[i : i + len(b)]`. -/
def isContigSlice (l b : List SearchResult) : Bool :=
  (List.range (l.length + 1)).any (fun i => (l.drop i).take b.length == b)

end Ramayanam

namespace Ramayanam

theorem find?_map_replace (k : CacheKey) (v : List SearchResult) (t : Nat) :
    ∀ l : List CacheSlot, l.any (fun e => decide (e.1 = k)) = true →
      (l.map (fun e => if e.1 = k then (k, v, t) else e)).find?
        (fun e => decide (e.1 = k)) = some (k, v, t) := by
  intro l
  induction l with
  | nil => simp
  | cons e es ih =>
    intro hany
    by_cases hk : e.1 = k
    · simp [hk]
    · have hany' : es.any (fun e => decide (e.1 = k)) = true := by
        simp only [List.any_cons, Bool.or_eq_true, decide_eq_true_eq] at hany
        rcases hany with h | h
        · exact absurd h hk
        · exact h
      simp only [List.map_cons, if_neg hk]
      rw [List.find?_cons_of_neg _ (by simpa using hk)]
      exact ih hany'

theorem find?_append_self (k : CacheKey) (v : List SearchResult) (t : Nat) :
    ∀ l : List CacheSlot, l.any (fun e => decide (e.1 = k)) = false →
      (l ++ [(k, v, t)]).find? (fun e => decide (e.1 = k)) = some (k, v, t) := by
  intro l
  induction l with
  | nil => simp
  | cons e es ih =>
    intro hany
    simp only [List.any_cons, Bool.or_eq_false_iff] at hany
    rw [List.cons_append, List.find?_cons_of_neg _ (by simpa using hany.1)]
    exact ih hany.2

/-- Whatever the cache held before, after `_cache_result(k, v)` at time
`t` the key `k` is present with value `v` and timestamp `t`. -/
theorem cacheResult_find_self (cfg : CacheConfig) (c : Cache) (k : CacheKey)
    (v : List SearchResult) (t : Nat) :
    (cacheResult cfg c k v t).find k = some (v, t) := by
  unfold cacheResult Cache.find
  set base := (evictLoop cfg.maxSize (cleanupByMemory cfg c.entries).1).1 with hbase
  by_cases h : base.any (fun e => decide (e.1 = k)) = true
  · simp only [h, if_true]
    rw [find?_map_replace k v t base h]
    rfl
  · have h' : base.any (fun e => decide (e.1 = k)) = false := by
      revert h
      cases base.any (fun e => decide (e.1 = k)) <;> simp
    simp only [h', Bool.false_eq_true, if_false]
    rw [find?_append_self k v t base h']
    rfl

/-- Operation `_cache_result` never changes the hit and miss counters. -/
theorem cacheResult_stats (cfg : CacheConfig) (c : Cache) (k : CacheKey)
    (v : List SearchResult) (t : Nat) :
    (cacheResult cfg c k v t).stats.hits = c.stats.hits ∧
    (cacheResult cfg c k v t).stats.misses = c.stats.misses := by
  unfold cacheResult
  exact ⟨rfl, rfl⟩

/-- Reading `_get_cached_result` in terms of `Cache.find`: the fresh-hit value. -/
theorem getCachedResult_of_find_fresh {cfg : CacheConfig} {c : Cache} {k : CacheKey}
    {now : Nat} {v : List SearchResult} {ts : Nat}
    (hfind : c.find k = some (v, ts)) (hfresh : now - ts < cfg.ttl) :
    getCachedResult cfg c k now =
      (some v, ⟨moveToEnd c.entries k,
                ⟨c.stats.hits + 1, c.stats.misses, c.stats.evictions⟩⟩) := by
  unfold Cache.find at hfind
  unfold getCachedResult
  cases hf : c.entries.find? (fun e => decide (e.1 = k)) with
  | none => rw [hf] at hfind; simp at hfind
  | some e =>
    rw [hf] at hfind
    simp only [Option.map_some'] at hfind
    have he : e.2 = (v, ts) := Option.some.inj hfind
    simp [getCachedResult, hf, he, hfresh]

/-- Behaviour of `_get_cached_result` on an expired entry: a miss. -/
theorem getCachedResult_of_find_stale {cfg : CacheConfig} {c : Cache} {k : CacheKey}
    {now : Nat} {v : List SearchResult} {ts : Nat}
    (hfind : c.find k = some (v, ts)) (hstale : cfg.ttl ≤ now - ts) :
    (getCachedResult cfg c k now).1 = none := by
  unfold Cache.find at hfind
  unfold getCachedResult
  cases hf : c.entries.find? (fun e => decide (e.1 = k)) with
  | none => rfl
  | some e =>
    rw [hf] at hfind
    simp only [Option.map_some'] at hfind
    have he : e.2 = (v, ts) := Option.some.inj hfind
    simp only [getCachedResult, hf, he]
    rw [if_neg (by omega)]

/-- Behaviour of `_get_cached_result` on an absent key: a miss that leaves the entry
list untouched. -/
theorem getCachedResult_of_find_none {cfg : CacheConfig} {c : Cache} {k : CacheKey}
    {now : Nat} (hfind : c.find k = none) :
    getCachedResult cfg c k now =
      (none, ⟨c.entries, ⟨c.stats.hits, c.stats.misses + 1, c.stats.evictions⟩⟩) := by
  unfold Cache.find at hfind
  unfold getCachedResult
  cases hf : c.entries.find? (fun e => decide (e.1 = k)) with
  | none => rfl
  | some e => rw [hf] at hfind; simp at hfind

end Ramayanam

namespace Ramayanam

open List

/-- After the eviction loop, strictly fewer than `maxSize` entries remain
(for any positive maximum). -/
theorem evictLoop_length {maxSize : Nat} (hm : 1 ≤ maxSize) :
    ∀ l : List CacheSlot, (evictLoop maxSize l).1.length ≤ maxSize - 1 := by
  intro l
  induction l with
  | nil => simp [evictLoop]
  | cons e es ih =>
    simp only [evictLoop]
    split
    · exact ih
    · rename_i hlt
      simp only [List.length_cons] at hlt ⊢
      omega

/-- Operation `_cache_result` keeps the entry count at or below the configured
maximum (for any positive maximum and any starting state). -/
theorem cacheResult_length_le (cfg : CacheConfig) (c : Cache) (k : CacheKey)
    (v : List SearchResult) (t : Nat) (hm : 1 ≤ cfg.maxSize) :
    (cacheResult cfg c k v t).entries.length ≤ cfg.maxSize := by
  have hb := evictLoop_length hm (cleanupByMemory cfg c.entries).1
  simp only [cacheResult]
  split
  · rw [List.length_map]
    omega
  · rw [List.length_append]
    simp only [List.length_singleton]
    omega

/-- Every batch yielded by the streaming loop is sorted by score
descending (each batch is a prefix of a freshly sorted accumulator). -/
theorem streamGo_batches_sorted (pr fr : String → String → Nat)
    (field : SearchField) (query : String) (threshold batchSize : Nat) :
    ∀ chunks acc, ∀ b ∈ streamGo pr fr field query threshold batchSize chunks acc,
      SortedDesc b := by
  intro chunks
  induction chunks with
  | nil =>
    intro acc b hb
    simp only [streamGo] at hb
    split at hb
    · simp at hb
    · rcases List.mem_singleton.mp hb with rfl
      exact sortDesc_sorted acc
  | cons ch rest ih =>
    intro acc b hb
    simp only [streamGo] at hb
    split at hb
    · split at hb
      · exact ih _ b hb
      · rcases List.mem_cons.mp hb with rfl | hb
        · exact sortedDesc_take _ (sortDesc_sorted _)
        · exact ih _ b hb
    · exact ih _ b hb

/-- Concatenating the batches yielded by the streaming loop is a
permutation of the accumulator plus everything the remaining chunks
match. -/
theorem streamGo_flatten_perm (pr fr : String → String → Nat)
    (field : SearchField) (query : String) (threshold batchSize : Nat) :
    ∀ chunks acc,
      List.Perm (streamGo pr fr field query threshold batchSize chunks acc).flatten
        (acc ++ ((chunks.map
          (fun ch => searchChunk pr fr ch query threshold field))).flatten) := by
  intro chunks
  induction chunks with
  | nil =>
    intro acc
    simp only [streamGo, List.map_nil, List.flatten_nil, List.append_nil]
    split
    · rename_i h; rw [h]; rfl
    · simpa using sortDesc_perm acc
  | cons ch rest ih =>
    intro acc
    simp only [streamGo, List.map_cons, List.flatten_cons]
    split
    · split
      · rename_i hcond hnil
        have hacc : acc = [] := (List.append_eq_nil.mp hnil).1
        have hch : sortDesc (searchChunk pr fr ch query threshold field) = [] :=
          (List.append_eq_nil.mp hnil).2
        have hch2 : searchChunk pr fr ch query threshold field = [] := by
          have hp := sortDesc_perm (searchChunk pr fr ch query threshold field)
          rw [hch] at hp
          exact hp.symm.eq_nil
        refine (ih _).trans ?_
        rw [hnil, hacc, hch2]
        simp
      · rename_i hcond hnil
        simp only [List.flatten_cons]
        calc ((sortDesc (acc ++ sortDesc (searchChunk pr fr ch query threshold field))).take
                (min batchSize (sortDesc (acc ++ sortDesc (searchChunk pr fr ch query threshold field))).length)) ++
              (streamGo pr fr field query threshold batchSize rest
                ((sortDesc (acc ++ sortDesc (searchChunk pr fr ch query threshold field))).drop
                  (min batchSize (sortDesc (acc ++ sortDesc (searchChunk pr fr ch query threshold field))).length))).flatten
            ~ _ := List.Perm.append_left _ (ih _)
          _ = sortDesc (acc ++ sortDesc (searchChunk pr fr ch query threshold field)) ++
              (List.map (fun ch => searchChunk pr fr ch query threshold field) rest).flatten := by
              rw [← List.append_assoc, List.take_append_drop]
          _ ~ (acc ++ sortDesc (searchChunk pr fr ch query threshold field)) ++
              (List.map (fun ch => searchChunk pr fr ch query threshold field) rest).flatten :=
              List.Perm.append_right _ (sortDesc_perm _)
          _ = acc ++ (sortDesc (searchChunk pr fr ch query threshold field) ++
              (List.map (fun ch => searchChunk pr fr ch query threshold field) rest).flatten) := by
              rw [List.append_assoc]
          _ ~ acc ++ (searchChunk pr fr ch query threshold field ++
              (List.map (fun ch => searchChunk pr fr ch query threshold field) rest).flatten) :=
              List.Perm.append_left _ (List.Perm.append_right _ (sortDesc_perm _))
    · refine (ih _).trans ?_
      rw [List.append_assoc]
      exact List.Perm.append_left acc (List.Perm.append_right _ (sortDesc_perm _))

end Ramayanam

namespace Ramayanam

theorem le_ceil_mul (len ps : Nat) (hps : 0 < ps) :
    len ≤ ps * ((len + ps - 1) / ps) := by
  have h1 := Nat.div_add_mod (len + ps - 1) ps
  have h2 := Nat.mod_lt (len + ps - 1) hps
  set M := ps * ((len + ps - 1) / ps) with hM
  set r := (len + ps - 1) % ps with hr
  omega

theorem pages_flatten (ps : Nat) (_hps : 0 < ps) :
    ∀ (n : Nat) (l : List SearchResult), l.length ≤ n * ps →
      ((List.range n).map (fun i => (l.drop (i * ps)).take ps)).flatten = l := by
  intro n
  induction n with
  | zero =>
    intro l hl
    have : l = [] := List.length_eq_zero.mp (by omega)
    simp [this]
  | succ n ih =>
    intro l hl
    rw [List.range_succ_eq_map]
    simp only [List.map_cons, List.flatten_cons, Nat.zero_mul, List.drop_zero,
      List.map_map]
    have hmap : ((List.range n).map ((fun i => (l.drop (i * ps)).take ps) ∘ Nat.succ))
        = (List.range n).map (fun i => ((l.drop ps).drop (i * ps)).take ps) := by
      refine List.map_congr_left ?_
      intro i _
      simp only [Function.comp_apply]
      rw [List.drop_drop]
      have : i.succ * ps = i * ps + ps := by
        rw [Nat.succ_mul]
      rw [this, Nat.add_comm]
    rw [hmap, ih (l.drop ps) ?_, List.take_append_drop]
    rw [List.length_drop]
    have : (n + 1) * ps = n * ps + ps := by rw [Nat.succ_mul]
    set M := n * ps
    omega

/-- The distance from an exact rational to its round-half-to-even value is
at most one half. -/
theorem roundHalfEven_close (x : ℚ) : |(roundHalfEven x : ℚ) - x| ≤ 1 / 2 := by
  simp only [roundHalfEven]
  have h1 : (⌊x⌋ : ℚ) ≤ x := Int.floor_le x
  have h2 : x < ⌊x⌋ + 1 := Int.lt_floor_add_one x
  split
  · rename_i h
    rw [abs_le]
    constructor <;> linarith
  · split
    · rename_i h h'
      push_cast
      rw [abs_le]
      constructor <;> linarith
    · split
      · rename_i h h' h''
        rw [abs_le]
        constructor <;> linarith
      · rename_i h h' h''
        push_cast
        rw [abs_le]
        constructor <;> linarith

/-- Rounding to two decimals moves a rational by at most `1/200`. -/
theorem round2_close (x : ℚ) : |round2 x - x| ≤ 1 / 200 := by
  unfold round2
  have h := roundHalfEven_close (x * 100)
  have : (roundHalfEven (x * 100) : ℚ) / 100 - x
      = ((roundHalfEven (x * 100) : ℚ) - x * 100) / 100 := by ring
  rw [this, abs_div]
  rw [show |(100 : ℚ)| = 100 by norm_num]
  rw [div_le_div_iff₀ (by norm_num) (by norm_num)]
  linarith

/-- Round-half-to-even is the identity on integers. -/
theorem roundHalfEven_intCast (n : ℤ) : roundHalfEven (n : ℚ) = n := by
  simp only [roundHalfEven]
  rw [Int.floor_intCast]
  rw [if_pos]
  rw [sub_self]
  norm_num

end Ramayanam

namespace Ramayanam

/-- A value served from the cache is the stored value of some entry whose
key is the requested key. -/
theorem getCachedResult_mem {cfg : CacheConfig} {c : Cache} {k : CacheKey}
    {now : Nat} {v : List SearchResult}
    (h : (getCachedResult cfg c k now).1 = some v) :
    ∃ e ∈ c.entries, e.1 = k ∧ e.2.1 = v := by
  unfold getCachedResult at h
  cases hf : c.entries.find? (fun e => decide (e.1 = k)) with
  | none => rw [hf] at h; simp at h
  | some e =>
    rw [hf] at h
    split at h
    · rename_i e2 heq
      injection heq with heq2
      subst heq2
      split at h
      · refine ⟨e, List.mem_of_find?_eq_some hf, ?_, ?_⟩
        · simpa using List.find?_some hf
        · simpa using h
      · simp at h
    · rename_i heq
      simp at heq

/-- Every result produced by `_parallel_search_chunk` scores strictly
above the threshold it was called with. -/
theorem searchChunk_threshold {pr fr : String → String → Nat}
    {chunk : List SlokaEntry} {query : String} {T : Nat} {field : SearchField} :
    ∀ r ∈ searchChunk pr fr chunk query T field, T < r.ratio := by
  intro r hr
  unfold searchChunk at hr
  rcases List.mem_filterMap.mp hr with ⟨item, _, hitem⟩
  unfold resultOfItem at hitem
  cases field with
  | translation =>
    simp only at hitem
    split at hitem
    · simp at hitem
    · split at hitem
      · rename_i hlt
        rcases Option.some.inj hitem with rfl
        exact hlt
      · simp at hitem
  | slokaText =>
    simp only at hitem
    split at hitem
    · simp at hitem
    · split at hitem
      · rename_i hlt
        rcases Option.some.inj hitem with rfl
        exact hlt
      · simp at hitem

/-- Claim C4: a cache `get` performed after `put(key, v)` while the TTL
has not elapsed returns `v`; once `now - insertion_timestamp` reaches the
TTL, the same `get` is a miss (the expired entry is logically absent). -/
theorem c4_cache_get_put_ttl (cfg : CacheConfig) (c : Cache) (k : CacheKey)
    (v : List SearchResult) (t now : Nat) :
    (now - t < cfg.ttl →
      (getCachedResult cfg (cacheResult cfg c k v t) k now).1 = some v) ∧
    (cfg.ttl ≤ now - t →
      (getCachedResult cfg (cacheResult cfg c k v t) k now).1 = none) := by
  have hfind := cacheResult_find_self cfg c k v t
  constructor
  · intro h
    rw [getCachedResult_of_find_fresh hfind h]
  · intro h
    exact getCachedResult_of_find_stale hfind h

/-- A cache configuration for concrete runs: the optimized service's TTL
600 s and maximum size 200, with the memory estimate always under
budget. -/
def cfgEx : CacheConfig := ⟨600, 200, fun _ => false⟩

/-- A concrete cache key. -/
def keyEx : CacheKey := ⟨"translation", "king", none, 70⟩

/-- A concrete search result. -/
def rEx : SearchResult :=
  ⟨"1.1.1", "sloka text", "a translation", "a meaning", 90, some "ramayana"⟩

/-- Witness for C4 at a concrete key, value and pair of timestamps. -/
theorem c4_cache_get_put_ttl_witness :
    (getCachedResult cfgEx (cacheResult cfgEx Cache.empty keyEx [rEx] 0) keyEx 10).1
      = some [rEx] ∧
    (getCachedResult cfgEx (cacheResult cfgEx Cache.empty keyEx [rEx] 0) keyEx 700).1
      = none :=
  ⟨(c4_cache_get_put_ttl cfgEx Cache.empty keyEx [rEx] 0 10).1 (by decide),
   (c4_cache_get_put_ttl cfgEx Cache.empty keyEx [rEx] 0 700).2 (by decide)⟩

end Ramayanam

namespace Ramayanam

/-- A second concrete cache key, distinct from `keyEx`. -/
def keyEx2 : CacheKey := ⟨"translation", "rama", none, 70⟩

/-- A third concrete cache key, distinct from `keyEx` and `keyEx2`. -/
def keyEx3 : CacheKey := ⟨"sanskrit", "agni", none, 70⟩

/-- A cache configuration with maximum size 2 (scenario D). -/
def cfg2 : CacheConfig := ⟨600, 2, fun _ => false⟩

/-- Claim C5: with max size 2, after putting `keyEx` (t=0) and `keyEx2`
(t=1) and then hitting `keyEx` (t=2, which moves it to the
most-recently-used end), putting a third distinct key evicts `keyEx2`,
the least-recently-used of the first two; and in general `_cache_result`
never lets the entry count exceed the configured maximum. -/
theorem c5_lru_eviction :
    ((cacheResult cfg2
        (getCachedResult cfg2
          (cacheResult cfg2
            (cacheResult cfg2 Cache.empty keyEx [rEx] 0)
            keyEx2 [] 1)
          keyEx 2).2
        keyEx3 [rEx] 3).entries.map (fun e => e.1) = [keyEx, keyEx3]) ∧
    (∀ (cfg : CacheConfig) (c : Cache) (k : CacheKey) (v : List SearchResult)
        (t : Nat), 1 ≤ cfg.maxSize →
        (cacheResult cfg c k v t).entries.length ≤ cfg.maxSize) := by
  constructor
  · decide
  · intro cfg c k v t hm
    exact cacheResult_length_le cfg c k v t hm

/-- Witness for the general size bound of C5 at a concrete state. -/
theorem c5_lru_eviction_witness :
    (cacheResult cfgEx Cache.empty keyEx [rEx] 0).entries.length ≤ cfgEx.maxSize :=
  c5_lru_eviction.2 cfgEx Cache.empty keyEx [rEx] 0 (by decide)

/-- Claim C9 (corrected): `hit_rate` is 0 with no requests, and otherwise
is the rounded *percentage* `hits / (hits + misses) * 100` — within the
two-decimal rounding error of `1/200` of the exact percentage. -/
theorem c9_hit_rate_formula (c : Cache) :
    (c.stats.hits + c.stats.misses = 0 → (getCacheStats c).hit_rate = 0) ∧
    (0 < c.stats.hits + c.stats.misses →
      |(getCacheStats c).hit_rate -
        (c.stats.hits : ℚ) / ((c.stats.hits + c.stats.misses : Nat) : ℚ) * 100|
        ≤ 1 / 200) := by
  constructor
  · intro h
    simp [getCacheStats, h]
  · intro h
    simp only [getCacheStats, if_pos h]
    exact round2_close _

/-- Witness for C9's corrected statement: one hit and three misses give a
reported rate within `1/200` of the exact percentage 25. -/
theorem c9_hit_rate_formula_witness :
    |(getCacheStats ⟨[], ⟨1, 3, 0⟩⟩).hit_rate -
      ((Cache.mk [] ⟨1, 3, 0⟩).stats.hits : ℚ) /
        (((Cache.mk [] ⟨1, 3, 0⟩).stats.hits +
          (Cache.mk [] ⟨1, 3, 0⟩).stats.misses : Nat) : ℚ) * 100| ≤ 1 / 200 :=
  (c9_hit_rate_formula ⟨[], ⟨1, 3, 0⟩⟩).2 (by decide)

/-- Counterexample to C9 as stated: with one hit and one miss the code
reports `hit_rate = 50` (a percentage), not `hits / (hits + misses) =
1/2`. -/
theorem c9_hit_rate_cex :
    (getCacheStats ⟨[], ⟨1, 1, 0⟩⟩).hit_rate = 50 ∧
    ((1 : ℚ) / (1 + 1) ≠ 50) := by
  constructor
  · have h1 : ((1 : Nat) : ℚ) / (((1 + 1 : Nat)) : ℚ) * 100 = 50 := by norm_num
    have h2 : (getCacheStats ⟨[], ⟨1, 1, 0⟩⟩).hit_rate
        = round2 (((1 : Nat) : ℚ) / (((1 + 1 : Nat)) : ℚ) * 100) := by
      simp [getCacheStats]
    rw [h2, h1]
    unfold round2
    rw [show ((50 : ℚ) * 100) = ((5000 : ℤ) : ℚ) by norm_num,
      roundHalfEven_intCast]
    norm_num
  · norm_num

end Ramayanam

namespace Ramayanam

/-- Claim C6: the controller's pagination is a view over the full ranked
list — concatenating the pages `1..total_pages` (fixed positive page
size) reproduces the full list with no duplicates or gaps; and on a
25-result list, page 3 with page size 10 holds exactly 5 results with
`has_next = false` and `has_prev = true` (scenario E). -/
theorem c6_pagination (l : List SearchResult) (ps : Nat) (hps : 0 < ps) :
    (((List.range ((l.length + ps - 1) / ps)).map
        (fun i => (paginate l (i + 1) ps).1)).flatten = l) ∧
    (l.length = 25 →
      (paginate l 3 10).1.length = 5 ∧
      (paginate l 3 10).2.has_next = false ∧
      (paginate l 3 10).2.has_prev = true) := by
  constructor
  · have hmap : (List.range ((l.length + ps - 1) / ps)).map
        (fun i => (paginate l (i + 1) ps).1)
        = (List.range ((l.length + ps - 1) / ps)).map
            (fun i => (l.drop (i * ps)).take ps) := by
      refine List.map_congr_left ?_
      intro i _
      simp [paginate]
    rw [hmap]
    refine pages_flatten ps hps _ l ?_
    rw [Nat.mul_comm]
    exact le_ceil_mul l.length ps hps
  · intro h25
    refine ⟨?_, ?_, ?_⟩
    · simp [paginate, h25]
    · simp [paginate, h25]
    · simp [paginate, h25]

/-- Witness for C6: scenario E on a concrete 25-element result list. -/
theorem c6_pagination_witness :
    (paginate (List.replicate 25 rEx) 3 10).1.length = 5 ∧
    (paginate (List.replicate 25 rEx) 3 10).2.has_next = false ∧
    (paginate (List.replicate 25 rEx) 3 10).2.has_prev = true :=
  (c6_pagination (List.replicate 25 rEx) 10 (by decide)).2 (by simp)

/-- Claim C3: the translation search endpoint rejects a blank query with
the descriptive validation error instead of returning a result list. -/
theorem c3_empty_query_rejected (pr fr : String → String → Nat)
    (tIndex : List SlokaEntry) (cfg : CacheConfig) (c : Cache) (now : Nat)
    (queryParam : String) (kandaNum threshold page pageSizeParam : Nat)
    (hq : strTrim queryParam = "") :
    fuzzySearchSlokas pr fr tIndex cfg c now queryParam kandaNum threshold
        page pageSizeParam = .error "Query parameter is required" := by
  unfold fuzzySearchSlokas
  rw [hq]
  rfl

/-- Witness for C3: the literal empty query and a whitespace-only query
are both rejected. -/
theorem c3_empty_query_rejected_witness :
    fuzzySearchSlokas (fun _ _ => 0) (fun _ _ => 0) [] cfgEx Cache.empty 0
        "  " 0 70 1 10 = .error "Query parameter is required" :=
  c3_empty_query_rejected (fun _ _ => 0) (fun _ _ => 0) [] cfgEx Cache.empty 0
    "  " 0 70 1 10 (by decide)

end Ramayanam

namespace Ramayanam

end Ramayanam

namespace Ramayanam

/-- A concrete Sanskrit-index entry. -/
def sk1 : SlokaEntry := ⟨"1.1.1", "rama", "t", "rama", 1⟩

/-- The result the fuzzy path produces for `sk1` under the constant-60
scorer. -/
def c2r : SearchResult := ⟨"1.1.1", "rama", "t", "rama", 60, some "ramayana"⟩

/-- Counterexample to C2 as stated: at the caller-supplied threshold 150
the exact-substring fast path still returns a result scored 100, so not
every returned result has score at least the threshold. -/
theorem c2_threshold_cex :
    ((searchSlokaSanskritFuzzy (fun _ _ => 0) (fun _ _ => 0) [sk1] cfgEx
        Cache.empty 0 "rama" 150 1).1.map (fun r => r.ratio) = [100]) ∧
    ¬ (∀ r ∈ (searchSlokaSanskritFuzzy (fun _ _ => 0) (fun _ _ => 0) [sk1] cfgEx
        Cache.empty 0 "rama" 150 1).1, 150 ≤ r.ratio) := by
  exact ⟨by decide, by decide⟩

/-- On a well-formed cache (all stored lists sorted), the translation
search always returns a list sorted by score descending, whichever of its
three paths (cache hit, exact fast path, fuzzy scan) produced it. -/
theorem searchTranslationFuzzy_sorted (pr fr : String → String → Nat)
    (index : List SlokaEntry) (cfg : CacheConfig) (c : Cache) (now : Nat)
    (q : String) (mr : Nat) (hc : CacheSorted c) :
    SortedDesc (searchTranslationFuzzy pr fr index cfg c now q mr).1 := by
  simp only [searchTranslationFuzzy]
  split
  · exact List.Pairwise.nil
  · split
    · rename_i hq hne
      cases hl : (getCachedResult cfg c (transKey q) now).1 with
      | none => rw [hl] at hne; simp at hne
      | some v =>
        rcases getCachedResult_mem hl with ⟨e, hmem, hkey, hval⟩
        exact sortedDesc_take _ (hval ▸ hc e hmem)
    · split
      · exact sortDesc_sorted _
      · exact sortedDesc_take _ (sortDesc_sorted _)

/-- Sorted-output property of the Sanskrit search, same three paths. -/
theorem searchSlokaSanskritFuzzy_sorted (pr fr : String → String → Nat)
    (index : List SlokaEntry) (cfg : CacheConfig) (c : Cache) (now : Nat)
    (q : String) (T mr : Nat) (hc : CacheSorted c) :
    SortedDesc (searchSlokaSanskritFuzzy pr fr index cfg c now q T mr).1 := by
  simp only [searchSlokaSanskritFuzzy]
  split
  · rename_i hne
    cases hl : (getCachedResult cfg c ⟨"sanskrit", strLower q, none, T⟩ now).1 with
    | none => rw [hl] at hne; simp at hne
    | some v =>
      rcases getCachedResult_mem hl with ⟨e, hmem, hkey, hval⟩
      exact sortedDesc_take _ (hval ▸ hc e hmem)
  · split
    · exact sortDesc_sorted _
    · exact sortedDesc_take _ (sortDesc_sorted _)

/-- Index entry for sarga 2 (comes first in corpus-traversal order). -/
def e12 : SlokaEntry := ⟨"1.2.1", "s2", "aaa", "m2", 1⟩

/-- Index entry for sarga 10 (comes second in corpus-traversal order, but
its identifier string sorts before "1.2.1"). -/
def e110 : SlokaEntry := ⟨"1.10.1", "s10", "bbb", "m10", 1⟩

/-- Counterexample to C1 as stated: under a scorer giving both verses the
same score 80, the returned order is ["1.2.1", "1.10.1"] — the stable
sort keeps corpus order for ties, yet "1.10.1" < "1.2.1" as verse
identifiers, so equal-score results are NOT ordered by ascending verse
identifier. -/
theorem c1_tiebreak_cex :
    ((searchTranslationFuzzy (fun _ _ => 80) (fun _ _ => 0) [e12, e110] cfgEx
        Cache.empty 0 "king" 1000).1.map (fun r => r.ratio) = [80, 80]) ∧
    ((searchTranslationFuzzy (fun _ _ => 80) (fun _ _ => 0) [e12, e110] cfgEx
        Cache.empty 0 "king" 1000).1.map (fun r => r.sloka_number)
      = ["1.2.1", "1.10.1"]) ∧
    (strLt "1.10.1" "1.2.1" = true) :=
  ⟨by decide, by decide, by decide⟩

end Ramayanam

namespace Ramayanam

/-- Claim C10: an unexpired cache entry holding the empty list is never
served — the caller tests the cached value for truthiness — so a query
with an empty full result set is recomputed on every call: the returned
value is still `[]`, the hit counter is nevertheless incremented by the
lookup, and the entry is re-cached with a fresh timestamp (evidence of the
recomputation). -/
theorem c10_empty_cached_list (pr fr : String → String → Nat)
    (index : List SlokaEntry) (cfg : CacheConfig) (c : Cache) (now ts : Nat)
    (query : String) (mr : Nat)
    (hq : ¬ strTrim (strLower query) = "")
    (hfind : c.find (transKey query) = some ([], ts))
    (hfresh : now - ts < cfg.ttl)
    (hex : (index.filter (fun it => strContains it.translation
        (strTrim (strLower query)))).length < mr)
    (hnone : searchChunk pr fr index (strTrim (strLower query)) 70 .translation = []) :
    (searchTranslationFuzzy pr fr index cfg c now query mr).1 = [] ∧
    (searchTranslationFuzzy pr fr index cfg c now query mr).2.stats.hits
      = c.stats.hits + 1 ∧
    (searchTranslationFuzzy pr fr index cfg c now query mr).2.find (transKey query)
      = some ([], now) := by
  have hget := @getCachedResult_of_find_fresh cfg c (transKey query) now [] ts hfind hfresh
  have hn : 0 < max 50 (index.length / min 8 (max 2 (index.length / 500))) :=
    Nat.lt_of_lt_of_le (by norm_num) (Nat.le_max_left _ _)
  have hjoin := chunksOf_searchChunk_join pr fr (strTrim (strLower query)) 70
    .translation hn index
  simp only [searchTranslationFuzzy, if_neg hq, hget]
  rw [if_neg (by simp)]
  rw [if_neg (by omega)]
  rw [hjoin, hnone]
  simp only [sortDesc, List.take_nil]
  refine ⟨trivial, ?_, ?_⟩
  · rw [(cacheResult_stats cfg _ (transKey query) [] now).1]
  · exact cacheResult_find_self cfg _ (transKey query) [] now

/-- Witness for C10: an empty index and a cache holding `([], t=0)` under
the query's key; at `now = 5` the call returns `[]`, bumps the hit
counter, and refreshes the entry's timestamp to 5. -/
theorem c10_empty_cached_list_witness :
    (searchTranslationFuzzy (fun _ _ => 0) (fun _ _ => 0) [] cfgEx
      ⟨[(transKey "king", [], 0)], ⟨0, 0, 0⟩⟩ 5 "king" 1000).1 = [] ∧
    (searchTranslationFuzzy (fun _ _ => 0) (fun _ _ => 0) [] cfgEx
      ⟨[(transKey "king", [], 0)], ⟨0, 0, 0⟩⟩ 5 "king" 1000).2.stats.hits
      = (Cache.mk [(transKey "king", [], 0)] ⟨0, 0, 0⟩).stats.hits + 1 ∧
    (searchTranslationFuzzy (fun _ _ => 0) (fun _ _ => 0) [] cfgEx
      ⟨[(transKey "king", [], 0)], ⟨0, 0, 0⟩⟩ 5 "king" 1000).2.find (transKey "king")
      = some ([], 5) :=
  c10_empty_cached_list (fun _ _ => 0) (fun _ _ => 0) [] cfgEx
    ⟨[(transKey "king", [], 0)], ⟨0, 0, 0⟩⟩ 5 0 "king" 1000
    (by decide) (by decide) (by decide) (by decide) (by decide)

end Ramayanam

namespace Ramayanam

/-- Claim C7 (corrected): every batch yielded by `search_stream` is
internally sorted by score descending — but it is generally not a
contiguous slice of the fully ranked result list, because batches are
emitted before later chunks have been scored (see the counterexample). -/
theorem c7_batches_sorted (pr fr : String → String → Nat)
    (tIndex sIndex : List SlokaEntry) (searchType : String)
    (threshold batchSize : Nat) (query : String) :
    ∀ b ∈ searchStream pr fr tIndex sIndex searchType threshold batchSize query,
      SortedDesc b := by
  intro b hb
  simp only [searchStream] at hb
  split at hb
  · simp at hb
  · exact streamGo_batches_sorted pr fr _ _ threshold batchSize _ _ b hb

/-- A score table for the streaming counterexample: translations "aaa",
"bbb", "ccc", "ddd" score 95, 50, 70, 10. -/
def c7pr : String → String → Nat := fun t _ =>
  if t = "aaa" then 95 else if t = "bbb" then 50 else if t = "ccc" then 70 else 10

/-- Four-entry translation index for the streaming counterexample. -/
def c7Index : List SlokaEntry :=
  [⟨"1.1.1", "s", "aaa", "m", 1⟩, ⟨"1.1.2", "s", "bbb", "m", 1⟩,
   ⟨"1.1.3", "s", "ccc", "m", 1⟩, ⟨"1.1.4", "s", "ddd", "m", 1⟩]

/-- The first batch yielded in the C7 example run. -/
def r7a : SearchResult := ⟨"1.1.1", "s", "aaa", "m", 95, some "ramayana"⟩

/-- Second element of the first yielded batch in the C7 example run. -/
def r7b : SearchResult := ⟨"1.1.2", "s", "bbb", "m", 50, some "ramayana"⟩

/-- Witness for C7's corrected statement: the first yielded batch of a
concrete streaming run is sorted by score descending. -/
theorem c7_batches_sorted_witness : SortedDesc [r7a, r7b] :=
  c7_batches_sorted c7pr (fun _ _ => 0) c7Index [] "translation" 5 2 "zz"
    [r7a, r7b] (by decide)

/-- The fully ranked result list of the C7 example query. -/
def c7ranked : List SearchResult :=
  sortDesc (searchChunk c7pr (fun _ _ => 0) c7Index "zz" 5 .translation)

/-- Counterexample to C7 as stated: with batch size 2 the stream yields
batches scored [[95, 50], [70, 10]] while the fully ranked list is
scored [95, 70, 50, 10]; the first batch is not a contiguous slice of
the ranked list. -/
theorem c7_contiguous_cex :
    ((searchStream c7pr (fun _ _ => 0) c7Index [] "translation" 5 2 "zz").map
        (fun b => b.map (fun r => r.ratio)) = [[95, 50], [70, 10]]) ∧
    (c7ranked.map (fun r => r.ratio) = [95, 70, 50, 10]) ∧
    ((searchStream c7pr (fun _ _ => 0) c7Index [] "translation" 5 2 "zz").any
        (fun b => !(isContigSlice c7ranked b)) = true) :=
  ⟨by decide, by decide, by decide⟩

/-- Claim C8 (corrected): provided the query is not cached, the
exact-substring fast path does not trigger, and the full match list fits
within `max_results` (so the non-streaming call does not truncate), the
union of all batches yielded by `search_stream` equals, as a set, the
result list of the non-streaming translation search at the same
(hard-coded) threshold 70. -/
theorem c8_stream_equivalence (pr fr : String → String → Nat)
    (tIndex sIndex : List SlokaEntry) (cfg : CacheConfig) (c : Cache) (now : Nat)
    (query : String) (bs mr : Nat) (hbs : 0 < bs)
    (hmiss : c.find (transKey query) = none)
    (hexact : (tIndex.filter (fun it => strContains it.translation
        (strTrim (strLower query)))).length < mr)
    (hlen : (searchChunk pr fr tIndex (strTrim (strLower query)) 70
        .translation).length ≤ mr) :
    ∀ r, r ∈ (searchStream pr fr tIndex sIndex "translation" 70 bs query).flatten ↔
      r ∈ (searchTranslationFuzzy pr fr tIndex cfg c now query mr).1 := by
  intro r
  by_cases hq : strTrim (strLower query) = ""
  · simp [searchStream, searchTranslationFuzzy, hq]
  · have hjoin := chunksOf_searchChunk_join pr fr (strTrim (strLower query)) 70
      .translation hbs tIndex
    have h1 : List.Perm
        (searchStream pr fr tIndex sIndex "translation" 70 bs query).flatten
        (searchChunk pr fr tIndex (strTrim (strLower query)) 70 .translation) := by
      simp only [searchStream, if_neg hq, reduceIte]
      have hp := streamGo_flatten_perm pr fr .translation (strTrim (strLower query))
        70 bs (chunksOf bs tIndex) []
      rw [List.nil_append, hjoin] at hp
      exact hp
    have h2 : (searchTranslationFuzzy pr fr tIndex cfg c now query mr).1
        = sortDesc (searchChunk pr fr tIndex (strTrim (strLower query)) 70
            .translation) := by
      have hget := @getCachedResult_of_find_none cfg c (transKey query) now hmiss
      have hcs : 0 < max 50 (tIndex.length / min 8 (max 2 (tIndex.length / 500))) :=
        Nat.lt_of_lt_of_le (by norm_num) (Nat.le_max_left _ _)
      have hjoin2 := chunksOf_searchChunk_join pr fr (strTrim (strLower query)) 70
        .translation hcs tIndex
      simp only [searchTranslationFuzzy, if_neg hq, hget]
      rw [if_neg (by simp)]
      rw [if_neg (by omega)]
      rw [hjoin2]
      exact List.take_of_length_le (by rw [sortDesc_length]; exact hlen)
    rw [h2, h1.mem_iff]
    exact ((sortDesc_perm _).mem_iff).symm

/-- Entries for the C8 counterexample. -/
def c8e1 : SlokaEntry := ⟨"1.1.1", "s", "aaa", "m", 1⟩

/-- Second entry for the C8 counterexample. -/
def c8e2 : SlokaEntry := ⟨"1.1.2", "s", "bbb", "m", 1⟩

/-- Scorer for the C8 counterexample: "aaa" scores 90, all else 80. -/
def c8pr : String → String → Nat := fun t _ => if t = "aaa" then 90 else 80

/-- Witness for C8's corrected statement: with `max_results` large enough
(1000) the streamed union and the non-streaming list agree on a concrete
result. -/
theorem c8_stream_equivalence_witness :
    ((⟨"1.1.2", "s", "bbb", "m", 80, some "ramayana"⟩ : SearchResult) ∈
      (searchStream c8pr (fun _ _ => 0) [c8e1, c8e2] [] "translation" 70 50
        "zzz").flatten) ↔
    ((⟨"1.1.2", "s", "bbb", "m", 80, some "ramayana"⟩ : SearchResult) ∈
      (searchTranslationFuzzy c8pr (fun _ _ => 0) [c8e1, c8e2] cfgEx Cache.empty 0
        "zzz" 1000).1) :=
  c8_stream_equivalence c8pr (fun _ _ => 0) [c8e1, c8e2] [] cfgEx Cache.empty 0
    "zzz" 50 1000 (by decide) (by decide) (by decide) (by decide) _

/-- Counterexample to C8 as stated: with `max_results = 1` the
non-streaming search truncates to the single best result while the
stream yields both matches, so the result sets differ. -/
theorem c8_stream_cex :
    ((⟨"1.1.2", "s", "bbb", "m", 80, some "ramayana"⟩ : SearchResult) ∈
      (searchStream c8pr (fun _ _ => 0) [c8e1, c8e2] [] "translation" 70 50
        "zzz").flatten) ∧
    ¬ ((⟨"1.1.2", "s", "bbb", "m", 80, some "ramayana"⟩ : SearchResult) ∈
      (searchTranslationFuzzy c8pr (fun _ _ => 0) [c8e1, c8e2] cfgEx Cache.empty 0
        "zzz" 1).1) :=
  ⟨by decide, by decide⟩

end Ramayanam

namespace Ramayanam

/-- Model of `search_sloka_sanskrit_in_kanda_fuzzy(kanda_number, query,
threshold)` of the optimized service: kanda-scoped Sanskrit search — the
score comes from the sloka text alone (the meaning is only highlighted),
with no chunking and no exact-match fast path, cached under a
kanda-specific key, full list returned on a hit. -/
def searchSlokaSanskritInKandaFuzzy (pr fr : String → String → Nat)
    (index : List SlokaEntry) (cfg : CacheConfig) (c : Cache) (now : Nat)
    (kandaNumber : Nat) (query0 : String) (threshold : Nat) :
    List SearchResult × Cache :=
  let query := strLower query0
  let key : CacheKey := ⟨"sanskrit_kanda", query, some kandaNumber, threshold⟩
  let looked := getCachedResult cfg c key now
  let c1 := looked.2
  if (looked.1.getD []) ≠ [] then (looked.1.getD [], c1)
  else
    let kandaItems := index.filter (fun it => decide (it.kanda = kandaNumber))
    let results := kandaItems.filterMap (fun item =>
      let ratio := pr item.sloka_text query
      if threshold < ratio then
        some { sloka_number := item.sloka_id
               sloka := searchAndHighlight fr item.sloka_text query
               translation := item.translation
               meaning := searchAndHighlight fr item.meaning query
               ratio := ratio
               source := none }
      else none)
    let results := sortDesc results
    (results, cacheResult cfg c1 key results now)

/-- Model of the plain service's `_get_cached_result`
(fuzzy_search_service.py:145-158): the same TTL / move-to-end / delete-on-
expiry logic as the optimized service, but with no statistics counters. -/
def legacyGetCached (ttl : Nat) (entries : List CacheSlot) (k : CacheKey)
    (now : Nat) : Option (List SearchResult) × List CacheSlot :=
  match entries.find? (fun e => decide (e.1 = k)) with
  | some e =>
    if now - e.2.2 < ttl then (some e.2.1, moveToEnd entries k)
    else (none, entries.filter (fun x => !(decide (x.1 = k))))
  | none => (none, entries)

/-- Model of the plain service's `_cache_result` (lines 160-171): evict
from the front while at capacity, then insert (an existing key keeps its
position and gets the new value and timestamp); no memory sweep and no
statistics. -/
def legacyCacheResult (maxSize : Nat) (entries : List CacheSlot) (k : CacheKey)
    (v : List SearchResult) (now : Nat) : List CacheSlot :=
  let base := (evictLoop maxSize entries).1
  if base.any (fun e => decide (e.1 = k)) then
    base.map (fun e => if e.1 = k then (k, v, now) else e)
  else base ++ [(k, v, now)]

/-- Model of the plain service's `search_and_highlight` (lines 218-248):
identical tokenization and wrapping, but the fuzzy test uses the
`SequenceMatcher`-based `similarity` primitive, a 0..1 rational compared
against the default threshold 0.7.  `sim` is kept abstract (it lower-cases
its arguments internally, like `similarity`). -/
def legacySearchAndHighlight (sim : String → String → ℚ) (text query : String) :
    String :=
  let highlighted := (tokenize text).map (fun token =>
    if strLower query = strLower token then
      "<span class=\"highlight\">" ++ token ++ "</span>"
    else if 7 / 10 ≤ sim query token then
      "<span class=\"highlight\">" ++ token ++ "</span>"
    else token)
  " ".intercalate highlighted

/-- One item of the plain service's `_search_chunk` (lines 336-382): the
candidate's text is lower-cased at search time (the plain index stores
original case), scores must strictly exceed the threshold, and the result
dictionaries carry no `"source"` key.  Sanskrit mode scores both the
sloka text and the meaning and takes the maximum. -/
def legacyResultOfItem (pr : String → String → Nat) (sim : String → String → ℚ)
    (query : String) (threshold : Nat) (field : SearchField)
    (item : SlokaEntry) : Option SearchResult :=
  match field with
  | .translation =>
    if item.translation = "" then none
    else
      let text := strLower item.translation
      let ratio := pr text query
      if threshold < ratio then
        some { sloka_number := item.sloka_id
               sloka := item.sloka_text
               translation := legacySearchAndHighlight sim text query
               meaning := item.meaning
               ratio := ratio
               source := none }
      else none
  | .slokaText =>
    if item.sloka_text = "" ∨ item.meaning = "" then none
    else
      let text := strLower item.sloka_text
      let meaning := strLower item.meaning
      let ratio := max (pr text query) (pr meaning query)
      if threshold < ratio then
        some { sloka_number := item.sloka_id
               sloka := legacySearchAndHighlight sim text query
               translation := item.translation
               meaning := legacySearchAndHighlight sim meaning query
               ratio := ratio
               source := none }
      else none

/-- The plain service's `_search_chunk` over a chunk of candidates. -/
def legacySearchChunk (pr : String → String → Nat) (sim : String → String → ℚ)
    (chunk : List SlokaEntry) (query : String) (field : SearchField)
    (threshold : Nat) : List SearchResult :=
  chunk.filterMap (legacyResultOfItem pr sim query threshold field)

/-- Model of `_parallel_fuzzy_search(candidates, query, search_type,
threshold)` (lines 311-334): empty candidate set short-circuits;
otherwise the candidates are chunked (`max(50, len // 4)`), each chunk is
scored, and the per-chunk results are concatenated in submission order. -/
def legacyParallelFuzzySearch (pr : String → String → Nat)
    (sim : String → String → ℚ) (candidates : List SlokaEntry) (query : String)
    (field : SearchField) (threshold : Nat) : List SearchResult :=
  if candidates = [] then []
  else ((chunksOf (max 50 (candidates.length / 4)) candidates).map
    (fun ch => legacySearchChunk pr sim ch query field threshold)).flatten

/-- Model of the plain service's `search_translation_fuzzy(query,
max_results)` (lines 250-291): normalize, consult the cache (truthiness
test, like the optimized service), retrieve candidates from the inverted
word index — `getCandidates` abstracts `_get_translation_candidates`,
whose output order depends on Python set iteration order, which the
source does not fix — falling back to the whole translation index when
empty, score in parallel at the hard-coded threshold 70, sort by ratio
descending, truncate, cache and return. -/
def legacySearchTranslationFuzzy (pr : String → String → Nat)
    (sim : String → String → ℚ) (index : List SlokaEntry)
    (getCandidates : String → List SlokaEntry) (ttl maxSize : Nat)
    (entries : List CacheSlot) (now : Nat) (query0 : String) (maxResults : Nat) :
    List SearchResult × List CacheSlot :=
  let query := strTrim (strLower query0)
  if query = "" then ([], entries)
  else
    let key : CacheKey := ⟨"translation_all", query, none, 70⟩
    let looked := legacyGetCached ttl entries key now
    if (looked.1.getD []) ≠ [] then ((looked.1.getD []).take maxResults, looked.2)
    else
      let candidates0 := getCandidates query
      let candidates := if candidates0 = [] then index else candidates0
      let results := legacyParallelFuzzySearch pr sim candidates query
        .translation 70
      let finalResults := (sortDesc results).take maxResults
      (finalResults, legacyCacheResult maxSize looked.2 key finalResults now)

/-- Model of the plain service's `search_sloka_sanskrit_fuzzy(query,
threshold, max_results)` (lines 444-486): like its translation search but
over the Sanskrit candidates and with a caller-supplied threshold. -/
def legacySearchSlokaSanskritFuzzy (pr : String → String → Nat)
    (sim : String → String → ℚ) (index : List SlokaEntry)
    (getCandidates : String → List SlokaEntry) (ttl maxSize : Nat)
    (entries : List CacheSlot) (now : Nat) (query0 : String)
    (threshold maxResults : Nat) : List SearchResult × List CacheSlot :=
  let query := strTrim (strLower query0)
  if query = "" then ([], entries)
  else
    let key : CacheKey := ⟨"sanskrit_all", query, none, threshold⟩
    let looked := legacyGetCached ttl entries key now
    if (looked.1.getD []) ≠ [] then ((looked.1.getD []).take maxResults, looked.2)
    else
      let candidates0 := getCandidates query
      let candidates := if candidates0 = [] then index else candidates0
      let results := legacyParallelFuzzySearch pr sim candidates query
        .slokaText threshold
      let finalResults := (sortDesc results).take maxResults
      (finalResults, legacyCacheResult maxSize looked.2 key finalResults now)

/-- Every result list stored in a plain-service cache is sorted by score
descending. -/
def SlotsSorted (entries : List CacheSlot) : Prop :=
  ∀ e ∈ entries, SortedDesc e.2.1

end Ramayanam

namespace Ramayanam

/-- A value served from the plain service's cache is the stored value of
some entry under the requested key. -/
theorem legacyGetCached_mem {ttl : Nat} {entries : List CacheSlot}
    {k : CacheKey} {now : Nat} {v : List SearchResult}
    (h : (legacyGetCached ttl entries k now).1 = some v) :
    ∃ e ∈ entries, e.1 = k ∧ e.2.1 = v := by
  unfold legacyGetCached at h
  cases hf : entries.find? (fun e => decide (e.1 = k)) with
  | none => rw [hf] at h; simp at h
  | some e =>
    rw [hf] at h
    split at h
    · rename_i e2 heq
      injection heq with heq2
      subst heq2
      split at h
      · refine ⟨e, List.mem_of_find?_eq_some hf, ?_, ?_⟩
        · simpa using List.find?_some hf
        · simpa using h
      · simp at h
    · rename_i heq
      simp at heq

/-- Sorted output of the kanda-scoped translation search: the cache-hit
path serves a stored (sorted) list whole, the compute path sorts. -/
theorem searchTranslationInKandaFuzzy_sorted (pr fr : String → String → Nat)
    (index : List SlokaEntry) (cfg : CacheConfig) (c : Cache) (now : Nat)
    (kandaNumber : Nat) (q : String) (T : Nat) (hc : CacheSorted c) :
    SortedDesc (searchTranslationInKandaFuzzy pr fr index cfg c now
      kandaNumber q T).1 := by
  simp only [searchTranslationInKandaFuzzy]
  split
  · rename_i hne
    cases hl : (getCachedResult cfg c
        ⟨"translation_kanda", strLower q, some kandaNumber, T⟩ now).1 with
    | none => rw [hl] at hne; simp at hne
    | some v =>
      rcases getCachedResult_mem hl with ⟨e, hmem, hkey, hval⟩
      exact hval ▸ hc e hmem
  · exact sortDesc_sorted _

/-- Sorted output of the kanda-scoped Sanskrit search. -/
theorem searchSlokaSanskritInKandaFuzzy_sorted (pr fr : String → String → Nat)
    (index : List SlokaEntry) (cfg : CacheConfig) (c : Cache) (now : Nat)
    (kandaNumber : Nat) (q : String) (T : Nat) (hc : CacheSorted c) :
    SortedDesc (searchSlokaSanskritInKandaFuzzy pr fr index cfg c now
      kandaNumber q T).1 := by
  simp only [searchSlokaSanskritInKandaFuzzy]
  split
  · rename_i hne
    cases hl : (getCachedResult cfg c
        ⟨"sanskrit_kanda", strLower q, some kandaNumber, T⟩ now).1 with
    | none => rw [hl] at hne; simp at hne
    | some v =>
      rcases getCachedResult_mem hl with ⟨e, hmem, hkey, hval⟩
      exact hval ▸ hc e hmem
  · exact sortDesc_sorted _

/-- Sorted output of the plain service's translation search. -/
theorem legacySearchTranslationFuzzy_sorted (pr : String → String → Nat)
    (sim : String → String → ℚ) (index : List SlokaEntry)
    (getCandidates : String → List SlokaEntry) (ttl maxSize : Nat)
    (entries : List CacheSlot) (now : Nat) (q : String) (mr : Nat)
    (hc : SlotsSorted entries) :
    SortedDesc (legacySearchTranslationFuzzy pr sim index getCandidates ttl
      maxSize entries now q mr).1 := by
  simp only [legacySearchTranslationFuzzy]
  split
  · exact List.Pairwise.nil
  · split
    · rename_i hq hne
      cases hl : (legacyGetCached ttl entries
          ⟨"translation_all", strTrim (strLower q), none, 70⟩ now).1 with
      | none => rw [hl] at hne; simp at hne
      | some v =>
        rcases legacyGetCached_mem hl with ⟨e, hmem, hkey, hval⟩
        exact sortedDesc_take _ (hval ▸ hc e hmem)
    · exact sortedDesc_take _ (sortDesc_sorted _)

/-- Sorted output of the plain service's Sanskrit search. -/
theorem legacySearchSlokaSanskritFuzzy_sorted (pr : String → String → Nat)
    (sim : String → String → ℚ) (index : List SlokaEntry)
    (getCandidates : String → List SlokaEntry) (ttl maxSize : Nat)
    (entries : List CacheSlot) (now : Nat) (q : String) (T mr : Nat)
    (hc : SlotsSorted entries) :
    SortedDesc (legacySearchSlokaSanskritFuzzy pr sim index getCandidates ttl
      maxSize entries now q T mr).1 := by
  simp only [legacySearchSlokaSanskritFuzzy]
  split
  · exact List.Pairwise.nil
  · split
    · rename_i hq hne
      cases hl : (legacyGetCached ttl entries
          ⟨"sanskrit_all", strTrim (strLower q), none, T⟩ now).1 with
      | none => rw [hl] at hne; simp at hne
      | some v =>
        rcases legacyGetCached_mem hl with ⟨e, hmem, hkey, hval⟩
        exact sortedDesc_take _ (hval ▸ hc e hmem)
    · exact sortedDesc_take _ (sortDesc_sorted _)

/-- Claim C1 (corrected): every search — optimized translation and
Sanskrit, their kanda-scoped variants, and the plain service's
translation and Sanskrit searches — returns a list sorted by similarity
score descending (given caches whose stored lists are sorted, which every
store path guarantees); but there is no verse-identifier tie-break — the
sort key is the score alone and Python's stable sort keeps equal-score
results in corpus-index order (see the counterexample). -/
theorem c1_results_sorted (pr fr : String → String → Nat)
    (sim : String → String → ℚ) (tIndex sIndex : List SlokaEntry)
    (getCandidates : String → List SlokaEntry) (cfg : CacheConfig) (c : Cache)
    (ttl maxSize : Nat) (entries : List CacheSlot) (now : Nat)
    (kandaNumber : Nat) (q : String) (T mrT mrS mrL mrLS : Nat)
    (hc : CacheSorted c) (hcl : SlotsSorted entries) :
    SortedDesc (searchTranslationFuzzy pr fr tIndex cfg c now q mrT).1 ∧
    SortedDesc (searchSlokaSanskritFuzzy pr fr sIndex cfg c now q T mrS).1 ∧
    SortedDesc (searchTranslationInKandaFuzzy pr fr tIndex cfg c now
      kandaNumber q T).1 ∧
    SortedDesc (searchSlokaSanskritInKandaFuzzy pr fr sIndex cfg c now
      kandaNumber q T).1 ∧
    SortedDesc (legacySearchTranslationFuzzy pr sim tIndex getCandidates ttl
      maxSize entries now q mrL).1 ∧
    SortedDesc (legacySearchSlokaSanskritFuzzy pr sim sIndex getCandidates ttl
      maxSize entries now q T mrLS).1 :=
  ⟨searchTranslationFuzzy_sorted pr fr tIndex cfg c now q mrT hc,
   searchSlokaSanskritFuzzy_sorted pr fr sIndex cfg c now q T mrS hc,
   searchTranslationInKandaFuzzy_sorted pr fr tIndex cfg c now kandaNumber q T hc,
   searchSlokaSanskritInKandaFuzzy_sorted pr fr sIndex cfg c now kandaNumber q T hc,
   legacySearchTranslationFuzzy_sorted pr sim tIndex getCandidates ttl maxSize
     entries now q mrL hcl,
   legacySearchSlokaSanskritFuzzy_sorted pr sim sIndex getCandidates ttl maxSize
     entries now q T mrLS hcl⟩

/-- Witness for C1's corrected statement: all six searches at a concrete
index, scorer and query. -/
theorem c1_results_sorted_witness :
    SortedDesc (searchTranslationFuzzy (fun _ _ => 60) (fun _ _ => 0) [sk1] cfgEx
      Cache.empty 0 "zz" 1000).1 ∧
    SortedDesc (searchSlokaSanskritFuzzy (fun _ _ => 60) (fun _ _ => 0) [sk1]
      cfgEx Cache.empty 0 "zz" 50 1000).1 ∧
    SortedDesc (searchTranslationInKandaFuzzy (fun _ _ => 60) (fun _ _ => 0)
      [sk1] cfgEx Cache.empty 0 1 "zz" 50).1 ∧
    SortedDesc (searchSlokaSanskritInKandaFuzzy (fun _ _ => 60) (fun _ _ => 0)
      [sk1] cfgEx Cache.empty 0 1 "zz" 50).1 ∧
    SortedDesc (legacySearchTranslationFuzzy (fun _ _ => 60) (fun _ _ => 0)
      [sk1] (fun _ => []) 300 100 [] 0 "zz" 1000).1 ∧
    SortedDesc (legacySearchSlokaSanskritFuzzy (fun _ _ => 60) (fun _ _ => 0)
      [sk1] (fun _ => []) 300 100 [] 0 "zz" 50 1000).1 :=
  c1_results_sorted (fun _ _ => 60) (fun _ _ => 0) (fun _ _ => 0) [sk1] [sk1]
    (fun _ => []) cfgEx Cache.empty 300 100 [] 0 1 "zz" 50 1000 1000 1000 1000
    (by intro e he; exact absurd he (by simp [Cache.empty]))
    (by intro e he; exact absurd he (by simp))

end Ramayanam

namespace Ramayanam

/-- Claim C2 (corrected): whenever the effective threshold is within the
0..100 score scale, every returned result scores at least that threshold,
across the searches: the Sanskrit search and both kanda-scoped searches
at a caller-supplied `T ≤ 100`, and the translation search at its
hard-coded threshold 70.  The hypothesis on the cache is satisfied by all
reachable states (`CacheThresholdOK` exempts keys whose recorded
threshold exceeds 100, the states a `T > 100` exact-path call creates).
The fuzzy paths even score strictly above the threshold; the
exact-substring fast path assigns the fixed score 100, which is why a
threshold above 100 breaks the claim as stated (see the
counterexample). -/
theorem c2_threshold_respected (pr fr : String → String → Nat)
    (tIndex sIndex : List SlokaEntry) (cfg : CacheConfig) (c : Cache)
    (now : Nat) (query : String) (kandaNumber : Nat) (T mrT mrS : Nat)
    (hT : T ≤ 100) (hc : CacheThresholdOK c) :
    (∀ r ∈ (searchSlokaSanskritFuzzy pr fr sIndex cfg c now query T mrS).1,
      T ≤ r.ratio) ∧
    (∀ r ∈ (searchTranslationFuzzy pr fr tIndex cfg c now query mrT).1,
      70 ≤ r.ratio) ∧
    (∀ r ∈ (searchTranslationInKandaFuzzy pr fr tIndex cfg c now kandaNumber
      query T).1, T ≤ r.ratio) ∧
    (∀ r ∈ (searchSlokaSanskritInKandaFuzzy pr fr sIndex cfg c now kandaNumber
      query T).1, T ≤ r.ratio) := by
  refine ⟨?_, ?_, ?_, ?_⟩
  · intro r hr
    simp only [searchSlokaSanskritFuzzy] at hr
    split at hr
    · rename_i hne
      cases hl : (getCachedResult cfg c ⟨"sanskrit", strLower query, none, T⟩
          now).1 with
      | none => rw [hl] at hr hne; simp at hne
      | some v =>
        rw [hl] at hr
        simp only [Option.getD_some] at hr
        rcases getCachedResult_mem hl with ⟨e, hmem, hkey, hval⟩
        have := hc e hmem (by rw [hkey]; exact hT) r
          (by rw [hval]; exact List.mem_of_mem_take hr)
        rw [hkey] at this
        exact this
    · split at hr
      · rename_i hexact
        have hr2 := (sortDesc_perm _).mem_iff.mp hr
        rcases List.mem_map.mp hr2 with ⟨it, _, rfl⟩
        simpa using hT
      · rename_i hexact
        have hr2 : r ∈ sortDesc (((chunksOf (max 100 (sIndex.length / 4))
            sIndex).map (fun ch => searchChunk pr fr ch (strLower query) T
              .slokaText)).flatten) :=
          List.mem_of_mem_take hr
        have hr3 := (sortDesc_perm _).mem_iff.mp hr2
        rcases List.mem_flatten.mp hr3 with ⟨bl, hbl, hrbl⟩
        rcases List.mem_map.mp hbl with ⟨ch, _, rfl⟩
        exact Nat.le_of_lt (searchChunk_threshold r hrbl)
  · intro r hr
    simp only [searchTranslationFuzzy] at hr
    split at hr
    · simp at hr
    · split at hr
      · rename_i hq hne
        cases hl : (getCachedResult cfg c (transKey query) now).1 with
        | none => rw [hl] at hr hne; simp at hne
        | some v =>
          rw [hl] at hr
          simp only [Option.getD_some] at hr
          rcases getCachedResult_mem hl with ⟨e, hmem, hkey, hval⟩
          have := hc e hmem (by rw [hkey]; simp [transKey]) r
            (by rw [hval]; exact List.mem_of_mem_take hr)
          rw [hkey] at this
          exact this
      · split at hr
        · rename_i hexact
          have hr2 := (sortDesc_perm _).mem_iff.mp hr
          rcases List.mem_map.mp hr2 with ⟨it, _, rfl⟩
          exact (by norm_num : (70 : Nat) ≤ 100)
        · rename_i hexact
          have hr2 : r ∈ sortDesc (((chunksOf (max 50 (tIndex.length /
              min 8 (max 2 (tIndex.length / 500)))) tIndex).map
              (fun ch => searchChunk pr fr ch (strTrim (strLower query)) 70
                .translation)).flatten) :=
            List.mem_of_mem_take hr
          have hr3 := (sortDesc_perm _).mem_iff.mp hr2
          rcases List.mem_flatten.mp hr3 with ⟨bl, hbl, hrbl⟩
          rcases List.mem_map.mp hbl with ⟨ch, _, rfl⟩
          exact Nat.le_of_lt (searchChunk_threshold r hrbl)
  · intro r hr
    simp only [searchTranslationInKandaFuzzy] at hr
    split at hr
    · rename_i hne
      cases hl : (getCachedResult cfg c
          ⟨"translation_kanda", strLower query, some kandaNumber, T⟩ now).1 with
      | none => rw [hl] at hr hne; simp at hne
      | some v =>
        rw [hl] at hr
        simp only [Option.getD_some] at hr
        rcases getCachedResult_mem hl with ⟨e, hmem, hkey, hval⟩
        have := hc e hmem (by rw [hkey]; exact hT) r (by rw [hval]; exact hr)
        rw [hkey] at this
        exact this
    · have hr2 := (sortDesc_perm _).mem_iff.mp hr
      rcases List.mem_filterMap.mp hr2 with ⟨item, _, hitem⟩
      split at hitem
      · rename_i hlt
        rcases Option.some.inj hitem with rfl
        exact Nat.le_of_lt hlt
      · simp at hitem
  · intro r hr
    simp only [searchSlokaSanskritInKandaFuzzy] at hr
    split at hr
    · rename_i hne
      cases hl : (getCachedResult cfg c
          ⟨"sanskrit_kanda", strLower query, some kandaNumber, T⟩ now).1 with
      | none => rw [hl] at hr hne; simp at hne
      | some v =>
        rw [hl] at hr
        simp only [Option.getD_some] at hr
        rcases getCachedResult_mem hl with ⟨e, hmem, hkey, hval⟩
        have := hc e hmem (by rw [hkey]; exact hT) r (by rw [hval]; exact hr)
        rw [hkey] at this
        exact this
    · have hr2 := (sortDesc_perm _).mem_iff.mp hr
      rcases List.mem_filterMap.mp hr2 with ⟨item, _, hitem⟩
      split at hitem
      · rename_i hlt
        rcases Option.some.inj hitem with rfl
        exact Nat.le_of_lt hlt
      · simp at hitem

/-- Witness for C2's corrected statement at threshold 50. -/
theorem c2_threshold_respected_witness : 50 ≤ c2r.ratio :=
  (c2_threshold_respected (fun _ _ => 60) (fun _ _ => 0) [sk1] [sk1] cfgEx
    Cache.empty 0 "zz" 1 50 1 1 (by decide)
    (by intro e he; exact absurd he (by simp [Cache.empty]))).1 c2r (by decide)

end Ramayanam
